import Mathlib

/-!
Verification of the diff-display processor (`src/processor.rs`, with callers in
`src/lib.rs`) of difftastic.nvim.

Embedding conventions:
* Rust `u32` / `usize` values (byte offsets, line numbers, counts, row indices)
  are modelled as `Nat`; the widening casts (`as usize`) are identities and the
  narrowing `as u32` casts never truncate for any realizable input size, so no
  modular reduction is inserted.  The one explicitly overflow-aware conversion
  in the source, `i32::try_from(end).unwrap_or(i32::MAX)`, is modelled faithfully.
* A Rust `&str` (always valid UTF-8) is modelled as its list of unicode scalar
  values, `List Char`; its byte content (`str::as_bytes`) is recovered by the
  UTF-8 encoder `strBytes`, and `str::len` is `byteLen`.
* `char::is_whitespace` (Unicode `White_Space`) is `rustIsWhitespace`;
  `u8::is_ascii_whitespace` is `isAsciiWhitespaceByte`.
* `std::collections::HashMap` with `insert` (last write wins) is modelled as a
  duplicate-free association list (`insertMap` / `mapGet`); its `len` (number of
  distinct keys) is the list length.
* The field `end` of the Rust structs `Change` and `HighlightRegion` is named
  `stop` here (`end` is a Lean keyword).
-/

/-- UTF-8 encoding of one unicode scalar value, as byte values.
Models the byte representation Rust strings use. -/
def charUtf8Bytes (c : Char) : List Nat :=
  let n := c.toNat
  if n < 0x80 then [n]
  else if n < 0x800 then [0xC0 + n / 64, 0x80 + n % 64]
  else if n < 0x10000 then [0xE0 + n / 4096, 0x80 + (n / 64) % 64, 0x80 + n % 64]
  else [0xF0 + n / 262144, 0x80 + (n / 4096) % 64, 0x80 + (n / 64) % 64, 0x80 + n % 64]

/-- The UTF-8 bytes of a string (Rust `str::as_bytes`). -/
def strBytes (s : List Char) : List Nat :=
  (s.map charUtf8Bytes).flatten

/-- Byte length of a string (Rust `str::len`). -/
def byteLen (s : List Char) : Nat :=
  (strBytes s).length

/-- Rust `u8::is_ascii_whitespace`: space, horizontal tab, line feed,
form feed, carriage return. -/
def isAsciiWhitespaceByte (b : Nat) : Bool :=
  b = 0x20 || b = 0x9 || b = 0xA || b = 0xC || b = 0xD

/-- Rust `char::is_whitespace`: the Unicode `White_Space` property. -/
def rustIsWhitespace (c : Char) : Bool :=
  let n := c.toNat
  n = 0x20 || (0x9 ≤ n && n ≤ 0xD) || n = 0x85 || n = 0xA0 || n = 0x1680 ||
    (0x2000 ≤ n && n ≤ 0x200A) || n = 0x2028 || n = 0x2029 || n = 0x202F ||
    n = 0x205F || n = 0x3000

/-- Rust `str::char_indices` starting from a given byte offset. -/
def charIndicesAux (off : Nat) : List Char → List (Nat × Char)
  | [] => []
  | c :: cs => (off, c) :: charIndicesAux (off + (charUtf8Bytes c).length) cs

/-- Rust `str::char_indices`: each character paired with its starting byte offset. -/
def charIndices (s : List Char) : List (Nat × Char) :=
  charIndicesAux 0 s

/-- File status from difftastic JSON (`difftastic.rs`, enum `Status`). -/
inductive Status where
  | created
  | deleted
  | changed
deriving DecidableEq, Repr

/-- A change region within a line (`difftastic.rs`, struct `Change`).
Field `stop` models the Rust field `end` (exclusive byte offset). -/
structure Change where
  start : Nat
  stop : Nat
  content : String
  highlight : String
deriving DecidableEq, Repr

/-- One side of a diff line (`difftastic.rs`, struct `Side`). -/
structure DiffSide where
  line_number : Nat
  changes : List Change
deriving DecidableEq, Repr

/-- A diff line entry (`difftastic.rs`, struct `DiffLine`). -/
structure DiffLine where
  lhs : Option DiffSide
  rhs : Option DiffSide
deriving DecidableEq, Repr

/-- A chunk of related diff lines (`difftastic.rs`, `type Chunk`). -/
abbrev Chunk := List DiffLine

/-- A file entry from difftastic JSON (`difftastic.rs`, struct `DifftFile`).
`path` is opaque here and modelled as a `String`. -/
structure DifftFile where
  path : String
  language : String
  status : Status
  aligned_lines : List (Option Nat × Option Nat)
  chunks : List Chunk
deriving DecidableEq, Repr

/-- A highlight region (`processor.rs`, struct `HighlightRegion`).
`start` is a `u32` column; `stop` models the Rust `i32` field `end`,
where `-1` is the full-line sentinel. -/
structure HighlightRegion where
  start : Nat
  stop : Int
deriving DecidableEq, Repr

/-- `HighlightRegion::full_line`: the full-line sentinel region. -/
def HighlightRegion.full_line : HighlightRegion :=
  ⟨0, -1⟩

/-- `HighlightRegion::columns`: region for a specific column range, with the
`i32::try_from(end).unwrap_or(i32::MAX)` conversion modelled explicitly. -/
def HighlightRegion.columns (start e : Nat) : HighlightRegion :=
  ⟨start, if e ≤ 2147483647 then (e : Int) else 2147483647⟩

/-- One display side of a row (`processor.rs`, struct `Side`). -/
structure Side where
  content : List Char
  is_filler : Bool
  highlights : List HighlightRegion
deriving DecidableEq, Repr

/-- `Side::filler`. -/
def Side.filler : Side :=
  ⟨[], true, []⟩

/-- `Side::with_full_highlight`. -/
def Side.with_full_highlight (content : List Char) : Side :=
  ⟨content, false, [HighlightRegion.full_line]⟩

/-- A display row (`processor.rs`, struct `Row`). -/
structure Row where
  left : Side
  right : Side
deriving DecidableEq, Repr

/-- A processed file (`processor.rs`, struct `DisplayFile`). -/
structure DisplayFile where
  path : String
  language : String
  status : Status
  additions : Nat
  deletions : Nat
  rows : List Row
  hunk_starts : List Nat
deriving DecidableEq, Repr

/-- `is_whitespace_only` (`processor.rs`): whether `bytes[s..e]` exists and
contains only ASCII whitespace; Rust's `bytes.get(s..e)` is `None` when
`s > e` or `e > bytes.len()`, in which case the result is `false`. -/
def is_whitespace_only (bytes : List Nat) (s e : Nat) : Bool :=
  if s ≤ e ∧ e ≤ bytes.length then
    ((bytes.drop s).take (e - s)).all isAsciiWhitespaceByte
  else
    false

/-- One iteration of the `merge_regions` loop (`processor.rs`): if `merged` has
a last element, either extend it (regions overlap/touch, or the gap is
whitespace-only) or push the incoming region; an empty `merged` just pushes. -/
def mergeStep (bytes : List Nat) (merged : List (Nat × Nat)) (r : Nat × Nat) :
    List (Nat × Nat) :=
  match merged.getLast? with
  | some last =>
    if last.2 ≥ r.1 || is_whitespace_only bytes last.2 r.1 then
      merged.dropLast ++ [(last.1, Nat.max last.2 r.2)]
    else
      merged ++ [r]
  | none => merged ++ [r]

/-- `merge_regions` (`processor.rs`): left fold of `mergeStep` over the regions. -/
def merge_regions (regions : List (Nat × Nat)) (bytes : List Nat) :
    List (Nat × Nat) :=
  regions.foldl (mergeStep bytes) []

/-- Insert into a list sorted by first component (ascending). -/
def insertByStart (r : Nat × Nat) : List (Nat × Nat) → List (Nat × Nat)
  | [] => [r]
  | x :: xs => if r.1 < x.1 then r :: x :: xs else x :: insertByStart r xs

/-- Model of `regions.sort_unstable_by_key(|r| r.0)` (`processor.rs`):
insertion sort by the `start` component. -/
def sortByStart : List (Nat × Nat) → List (Nat × Nat)
  | [] => []
  | r :: rs => insertByStart r (sortByStart rs)

/-- Whether byte position `pos` is covered by some region, as in the inner
check of `covers_all_non_whitespace` (`pos >= start && pos < end`). -/
def coveredByB (regions : List (Nat × Nat)) (pos : Nat) : Bool :=
  regions.any fun r => decide (r.1 ≤ pos) && decide (pos < r.2)

/-- The loop of `covers_all_non_whitespace` (`processor.rs`), carrying the
`has_non_ws` flag: returns `false` at the first uncovered non-whitespace
character, else the final flag. -/
def coversAux (regions : List (Nat × Nat)) : Bool → List (Nat × Char) → Bool
  | has_non_ws, [] => has_non_ws
  | has_non_ws, (i, c) :: rest =>
    if !(rustIsWhitespace c) then
      if !(coveredByB regions i) then false
      else coversAux regions true rest
    else
      coversAux regions has_non_ws rest

/-- `covers_all_non_whitespace` (`processor.rs`): character-wise iteration over
`char_indices`, checking each non-whitespace character's byte offset. -/
def covers_all_non_whitespace (line : List Char) (regions : List (Nat × Nat)) :
    Bool :=
  coversAux regions false (charIndices line)

/-- `compute_highlights` (`processor.rs`): empty changes give no highlights; a
single change spanning the whole line gives the sentinel; otherwise sort,
merge, and either collapse to the sentinel (full non-whitespace coverage) or
return the merged regions as explicit column ranges. -/
def compute_highlights (content : List Char) (changes : List Change) :
    List HighlightRegion :=
  match changes with
  | [] => []
  | c :: rest =>
    let len := byteLen content
    if rest = [] ∧ c.start = 0 ∧ len ≤ c.stop then
      [HighlightRegion.full_line]
    else
      let regions := sortByStart ((c :: rest).map fun ch => (ch.start, ch.stop))
      let merged := merge_regions regions (strBytes content)
      if covers_all_non_whitespace content merged then
        [HighlightRegion.full_line]
      else
        merged.map fun r => HighlightRegion.columns r.1 r.2

/-- `HashMap::insert` modelled on a duplicate-free association list:
last write wins (an existing key's value is replaced). -/
def insertMap (m : List (Nat × List Change)) (k : Nat) (v : List Change) :
    List (Nat × List Change) :=
  if m.any fun p => p.1 = k then
    m.map fun p => if p.1 = k then (k, v) else p
  else
    m ++ [(k, v)]

/-- `HashMap::get` on the association-list model. -/
def mapGet (m : List (Nat × List Change)) (k : Nat) : Option (List Change) :=
  (m.find? fun p => p.1 = k).map fun p => p.2

/-- `extract_changes` (`processor.rs`): builds the `(lhs_changes, rhs_changes)`
lookups from line number to change list, iterating chunks then diff lines. -/
def extract_changes (chunks : List Chunk) :
    List (Nat × List Change) × List (Nat × List Change) :=
  chunks.foldl
    (fun maps chunk =>
      chunk.foldl
        (fun maps dl =>
          let m1 := match dl.lhs with
            | some side => insertMap maps.1 side.line_number side.changes
            | none => maps.1
          let m2 := match dl.rhs with
            | some side => insertMap maps.2 side.line_number side.changes
            | none => maps.2
          (m1, m2))
        maps)
    ([], [])

/-- Content of one side of a row (`process_changed`):
`ln.and_then(|ln| lines.get(ln)).map_or_else(String::new, clone)`. -/
def sideContent (lines : List (List Char)) (ln? : Option Nat) : List Char :=
  ((ln?.bind fun ln => lines[ln]?).getD [])

/-- Highlights of one side of a row (`process_changed`):
`ln.and_then(|ln| changes_map.get(ln)).map_or_else(new, |cs| compute_highlights(content, cs))`. -/
def sideHighlights (m : List (Nat × List Change)) (content : List Char)
    (ln? : Option Nat) : List HighlightRegion :=
  match ln?.bind fun ln => mapGet m ln with
  | some changes => compute_highlights content changes
  | none => []

/-- The row built for one alignment entry in the `process_changed` loop. -/
def mkRow (old_lines new_lines : List (List Char))
    (lhsM rhsM : List (Nat × List Change)) (e : Option Nat × Option Nat) : Row :=
  let left_content := sideContent old_lines e.1
  let right_content := sideContent new_lines e.2
  ⟨⟨left_content, e.1.isNone, sideHighlights lhsM left_content e.1⟩,
   ⟨right_content, e.2.isNone, sideHighlights rhsM right_content e.2⟩⟩

/-- The `is_changed` predicate of the `process_changed` loop: a side is absent,
or either side's computed highlights are nonempty. -/
def entryChanged (old_lines new_lines : List (List Char))
    (lhsM rhsM : List (Nat × List Change)) (e : Option Nat × Option Nat) : Bool :=
  e.1.isNone || e.2.isNone ||
    !(sideHighlights lhsM (sideContent old_lines e.1) e.1).isEmpty ||
    !(sideHighlights rhsM (sideContent new_lines e.2) e.2).isEmpty

/-- The row loop of `process_changed` (`processor.rs`): carries the row index
and the `in_hunk` flag, producing the rows and the hunk start indices. -/
def processRowsAux (old_lines new_lines : List (List Char))
    (lhsM rhsM : List (Nat × List Change)) :
    Nat → Bool → List (Option Nat × Option Nat) → List Row × List Nat
  | _, _, [] => ([], [])
  | idx, in_hunk, e :: rest =>
    let is_changed := entryChanged old_lines new_lines lhsM rhsM e
    let emit := is_changed && !in_hunk
    let next_in_hunk :=
      if is_changed && !in_hunk then true
      else if !is_changed then false
      else in_hunk
    let r := processRowsAux old_lines new_lines lhsM rhsM (idx + 1) next_in_hunk rest
    (mkRow old_lines new_lines lhsM rhsM e :: r.1,
     (if emit then [idx] else []) ++ r.2)

/-- `process_changed` (`processor.rs`). -/
def process_changed (file : DifftFile) (old_lines new_lines : List (List Char)) :
    DisplayFile :=
  let maps := extract_changes file.chunks
  let r := processRowsAux old_lines new_lines maps.1 maps.2 0 false file.aligned_lines
  { path := file.path
    language := file.language
    status := file.status
    additions := maps.2.length
    deletions := maps.1.length
    rows := r.1
    hunk_starts := r.2 }

/-- `process_created` (`processor.rs`). -/
def process_created (file : DifftFile) (new_lines : List (List Char)) :
    DisplayFile :=
  let rows := new_lines.map fun line => Row.mk Side.filler (Side.with_full_highlight line)
  { path := file.path
    language := file.language
    status := file.status
    additions := rows.length
    deletions := 0
    rows := rows
    hunk_starts := if rows.isEmpty then [] else [0] }

/-- `process_deleted` (`processor.rs`). -/
def process_deleted (file : DifftFile) (old_lines : List (List Char)) :
    DisplayFile :=
  let rows := old_lines.map fun line => Row.mk (Side.with_full_highlight line) Side.filler
  { path := file.path
    language := file.language
    status := file.status
    additions := 0
    deletions := rows.length
    rows := rows
    hunk_starts := if rows.isEmpty then [] else [0] }

/-- `process_file` (`processor.rs`): dispatch on status. -/
def process_file (file : DifftFile) (old_lines new_lines : List (List Char)) :
    DisplayFile :=
  match file.status with
  | Status.created => process_created file new_lines
  | Status.deleted => process_deleted file old_lines
  | Status.changed => process_changed file old_lines new_lines

/-- Modelled from the spec: the four-argument `process_file` called from
`run_diff_impl` in `src/lib.rs` (which passes an optional externally computed
`(additions, deletions)` statistic) is not present under `src/` — the
`processor.rs` in `src/` only defines the three-argument version.  Per the
spec (§6), supplied statistics override the Change-Index-derived counts. -/
def process_file_with_stats (file : DifftFile)
    (old_lines new_lines : List (List Char)) (stats : Option (Nat × Nat)) :
    DisplayFile :=
  let d := process_file file old_lines new_lines
  match stats with
  | some s => { d with additions := s.1, deletions := s.2 }
  | none => d

/-- Spec-side description of the merge walk (spec §4.2 step 3, claim C1): walk
the sorted ranges left to right with a running region; merge the incoming
range into the running region — extending the running end to the maximum of
the two ends — exactly when the ranges overlap/touch (`gapStart ≥ gapEnd`) or
every byte of the line content in the gap is ASCII whitespace; otherwise the
running region is emitted and the incoming range starts a new running region. -/
def mergeSpecAux (bytes : List Nat) : (Nat × Nat) → List (Nat × Nat) → List (Nat × Nat)
  | run, [] => [run]
  | run, r :: rest =>
    if run.2 ≥ r.1 || is_whitespace_only bytes run.2 r.1 then
      mergeSpecAux bytes (run.1, Nat.max run.2 r.2) rest
    else
      run :: mergeSpecAux bytes r rest

/-- Spec-side merge (claim C1): first region starts the running region. -/
def mergeSpec (regions : List (Nat × Nat)) (bytes : List Nat) : List (Nat × Nat) :=
  match regions with
  | [] => []
  | r :: rest => mergeSpecAux bytes r rest

/-- The hunk-start emission as performed by the `process_changed` loop, on the
per-row `is_changed` booleans: emit the index on a `false → true` transition. -/
def hunkSpec : Nat → Bool → List Bool → List Nat
  | _, _, [] => []
  | idx, prev, b :: bs => (if b && !prev then [idx] else []) ++ hunkSpec (idx + 1) b bs

lemma foldl_mergeStep_append (bytes : List Nat) (rest : List (Nat × Nat)) :
    ∀ (run : Nat × Nat) (acc : List (Nat × Nat)),
      rest.foldl (mergeStep bytes) (acc ++ [run]) = acc ++ mergeSpecAux bytes run rest := by
  induction rest with
  | nil => intro run acc; simp [mergeSpecAux]
  | cons r t ih =>
    intro run acc
    have hstep : mergeStep bytes (acc ++ [run]) r =
        if run.2 ≥ r.1 || is_whitespace_only bytes run.2 r.1 then
          acc ++ [(run.1, Nat.max run.2 r.2)]
        else (acc ++ [run]) ++ [r] := by
      simp [mergeStep, List.getLast?_concat, List.dropLast_concat]
    have hspec : mergeSpecAux bytes run (r :: t) =
        if (decide (run.2 ≥ r.1) || is_whitespace_only bytes run.2 r.1) = true then
          mergeSpecAux bytes (run.1, Nat.max run.2 r.2) t
        else run :: mergeSpecAux bytes r t := rfl
    rw [List.foldl_cons, hstep, hspec]
    by_cases hc : (decide (run.2 ≥ r.1) || is_whitespace_only bytes run.2 r.1) = true
    · rw [if_pos hc, if_pos hc, ih (run.1, Nat.max run.2 r.2) acc]
    · rw [if_neg hc, if_neg hc, ih r (acc ++ [run])]
      simp

/-- `merge_regions` agrees with the spec-side running-region walk. -/
lemma merge_regions_eq_mergeSpec (regions : List (Nat × Nat)) (bytes : List Nat) :
    merge_regions regions bytes = mergeSpec regions bytes := by
  cases regions with
  | nil => rfl
  | cons r rest =>
    have h0 : mergeStep bytes [] r = [] ++ [r] := by simp [mergeStep]
    have := foldl_mergeStep_append bytes rest r []
    simpa [merge_regions, mergeSpec, h0] using this

lemma insertByStart_perm (r : Nat × Nat) (l : List (Nat × Nat)) :
    (insertByStart r l).Perm (r :: l) := by
  induction l with
  | nil => simp [insertByStart]
  | cons x xs ih =>
    by_cases h : r.1 < x.1
    · simp [insertByStart, h]
    · simp only [insertByStart, h, if_false]
      exact (ih.cons x).trans (List.Perm.swap r x xs)

/-- `sortByStart` is a permutation of its input. -/
lemma sortByStart_perm (l : List (Nat × Nat)) : (sortByStart l).Perm l := by
  induction l with
  | nil => simp [sortByStart]
  | cons r rs ih =>
    exact (insertByStart_perm r (sortByStart rs)).trans (ih.cons r)

lemma insertByStart_pairwise (r : Nat × Nat) (l : List (Nat × Nat))
    (h : l.Pairwise fun a b => a.1 ≤ b.1) :
    (insertByStart r l).Pairwise fun a b => a.1 ≤ b.1 := by
  induction l with
  | nil => simp [insertByStart]
  | cons x xs ih =>
    rcases List.pairwise_cons.mp h with ⟨hx, hxs⟩
    by_cases hlt : r.1 < x.1
    · simp only [insertByStart, if_pos hlt]
      refine List.pairwise_cons.mpr ⟨?_, h⟩
      intro b hb
      rcases List.mem_cons.mp hb with hb | hb
      · subst hb; exact Nat.le_of_lt hlt
      · exact Nat.le_trans (Nat.le_of_lt hlt) (hx b hb)
    · simp only [insertByStart, if_neg hlt]
      refine List.pairwise_cons.mpr ⟨?_, ih hxs⟩
      intro b hb
      have hmem : b ∈ r :: xs := (insertByStart_perm r xs).mem_iff.mp hb
      rcases List.mem_cons.mp hmem with hb | hb
      · subst hb; exact Nat.le_of_not_lt hlt
      · exact hx b hb

/-- `sortByStart` sorts by the `start` component, ascending. -/
lemma sortByStart_pairwise (l : List (Nat × Nat)) :
    (sortByStart l).Pairwise fun a b => a.1 ≤ b.1 := by
  induction l with
  | nil => simp [sortByStart]
  | cons r rs ih => exact insertByStart_pairwise r (sortByStart rs) ih

/-- Characterization of the `covers_all_non_whitespace` loop: true exactly when
every non-whitespace character is covered and (the flag was already set or)
some non-whitespace character exists. -/
lemma coversAux_eq (regions : List (Nat × Nat)) (l : List (Nat × Char)) :
    ∀ flag : Bool,
      coversAux regions flag l =
        ((l.all fun p => rustIsWhitespace p.2 || coveredByB regions p.1) &&
          (flag || l.any fun p => !rustIsWhitespace p.2)) := by
  induction l with
  | nil => intro flag; simp [coversAux]
  | cons p rest ih =>
    intro flag
    obtain ⟨i, c⟩ := p
    by_cases hws : rustIsWhitespace c
    · simp [coversAux, hws, ih]
    · by_cases hcov : coveredByB regions i
      · simp [coversAux, hws, hcov, ih]
      · simp [coversAux, hws, hcov]

/-- The rows produced by the `process_changed` loop are exactly the alignment
entries mapped through `mkRow`, independent of the hunk-tracking state. -/
lemma processRowsAux_fst (o n : List (List Char)) (lm rm : List (Nat × List Change))
    (es : List (Option Nat × Option Nat)) :
    ∀ (idx : Nat) (b : Bool),
      (processRowsAux o n lm rm idx b es).1 = es.map (mkRow o n lm rm) := by
  induction es with
  | nil => intro idx b; rfl
  | cons e rest ih =>
    intro idx b
    simp only [processRowsAux, List.map_cons]
    rw [ih]

/-- The hunk starts produced by the `process_changed` loop are `hunkSpec` of
the per-row `is_changed` booleans. -/
lemma processRowsAux_snd (o n : List (List Char)) (lm rm : List (Nat × List Change))
    (es : List (Option Nat × Option Nat)) :
    ∀ (idx : Nat) (b : Bool),
      (processRowsAux o n lm rm idx b es).2 =
        hunkSpec idx b (es.map (entryChanged o n lm rm)) := by
  induction es with
  | nil => intro idx b; rfl
  | cons e rest ih =>
    intro idx b
    cases hc : entryChanged o n lm rm e <;> cases b <;>
      simp [processRowsAux, hunkSpec, hc, ih]

/-- Closed form of `hunkSpec`: the emitted indices are the positions at which
the boolean is true and (at position zero) the carried flag is false, or (at a
later position) the previous boolean is false, shifted by the start index. -/
lemma hunkSpec_eq_filter (bs : List Bool) :
    ∀ (idx : Nat) (prev : Bool),
      hunkSpec idx prev bs =
        ((List.range bs.length).filter fun i =>
          bs.getD i false && (if i == 0 then !prev else !(bs.getD (i - 1) false))).map
          (· + idx) := by
  induction bs with
  | nil => intro idx prev; simp [hunkSpec]
  | cons b t ih =>
    intro idx prev
    have hpt : ∀ i : Nat,
        ((b :: t).getD (i + 1) false &&
            (if (i + 1 : Nat) == 0 then !prev else !((b :: t).getD (i + 1 - 1) false))) =
          (t.getD i false && (if (i : Nat) == 0 then !b else !(t.getD (i - 1) false))) := by
      intro i
      cases i with
      | zero => simp [List.getD]
      | succ j => simp [List.getD]
    calc hunkSpec idx prev (b :: t)
        = (if b && !prev then [idx] else []) ++ hunkSpec (idx + 1) b t := rfl
      _ = (if b && !prev then [idx] else []) ++
            ((List.range t.length).filter fun i =>
              t.getD i false && (if i == 0 then !b else !(t.getD (i - 1) false))).map
              (· + (idx + 1)) := by rw [ih]
      _ = _ := by
        rw [List.length_cons, List.range_succ_eq_map, List.filter_cons]
        have h0 : ((b :: t).getD 0 false &&
            (if (0 : Nat) == 0 then !prev else !((b :: t).getD (0 - 1) false))) = (b && !prev) := by
          simp [List.getD]
        rw [h0]
        have hmap : (List.filter
              (fun i => (b :: t).getD i false &&
                (if i == 0 then !prev else !((b :: t).getD (i - 1) false)))
              (List.map Nat.succ (List.range t.length))) =
            List.map Nat.succ ((List.range t.length).filter fun i =>
              t.getD i false && (if i == 0 then !b else !(t.getD (i - 1) false))) := by
          rw [List.filter_map]
          refine congrArg (List.map Nat.succ) (List.filter_congr ?_)
          intro i _
          simpa using hpt i
        rw [hmap]
        have hcomp : ∀ l : List Nat,
            (l.map Nat.succ).map (· + idx) = l.map (· + (idx + 1)) := by
          intro l
          rw [List.map_map]
          refine List.map_congr_left ?_
          intro i _
          simp [Function.comp, Nat.succ_eq_add_one]
          omega
        by_cases hb : (b && !prev) = true
        · rw [if_pos hb, if_pos hb, List.map_cons, hcomp]
          simp
        · rw [if_neg hb, if_neg hb, hcomp]
          simp

/-- Unfolding of `compute_highlights` past the two early returns. -/
lemma compute_highlights_else (content : List Char) (c : Change) (rest : List Change)
    (h : ¬(rest = [] ∧ c.start = 0 ∧ byteLen content ≤ c.stop)) :
    compute_highlights content (c :: rest) =
      (if covers_all_non_whitespace content
          (merge_regions (sortByStart ((c :: rest).map fun ch => (ch.start, ch.stop)))
            (strBytes content)) then
        [HighlightRegion.full_line]
      else
        (merge_regions (sortByStart ((c :: rest).map fun ch => (ch.start, ch.stop)))
          (strBytes content)).map fun r => HighlightRegion.columns r.1 r.2) := by
  simp only [compute_highlights]
  rw [if_neg h]

lemma byteLen_nil : byteLen ([] : List Char) = 0 := rfl

/-- On the empty line, a single change starting at 0 always takes the
single-spanning-change early return (every `u32` end is `≥ 0`). -/
lemma compute_highlights_empty_single (c : Change) (h : c.start = 0) :
    compute_highlights [] [c] = [HighlightRegion.full_line] := by
  have hlen : byteLen ([] : List Char) ≤ c.stop := by
    rw [byteLen_nil]; exact Nat.zero_le _
  simp only [compute_highlights]
  rw [if_pos ⟨by trivial, h, hlen⟩]

/-- `covers_all_non_whitespace` as a conjunction: every non-whitespace
character's byte offset is covered, and some non-whitespace character exists. -/
lemma covers_all_non_whitespace_eq (line : List Char) (regions : List (Nat × Nat)) :
    covers_all_non_whitespace line regions =
      (((charIndices line).all fun p => rustIsWhitespace p.2 || coveredByB regions p.1) &&
        ((charIndices line).any fun p => !rustIsWhitespace p.2)) := by
  rw [covers_all_non_whitespace, coversAux_eq]
  simp

/-- The merge walk preserves well-formedness of regions: if the running region
and all remaining regions have `start < end ≤ B`, so does every output. -/
lemma mergeSpecAux_invariant (bytes : List Nat) (B : Nat) (rest : List (Nat × Nat)) :
    ∀ run : Nat × Nat,
      run.1 < run.2 → run.2 ≤ B →
      (∀ r ∈ rest, r.1 < r.2 ∧ r.2 ≤ B) →
      ∀ m ∈ mergeSpecAux bytes run rest, m.1 < m.2 ∧ m.2 ≤ B := by
  induction rest with
  | nil =>
    intro run h1 h2 _ m hm
    simp only [mergeSpecAux, List.mem_singleton] at hm
    subst hm
    exact ⟨h1, h2⟩
  | cons r t ih =>
    intro run h1 h2 hall m hm
    have hr := hall r (List.mem_cons_self ..)
    have ht : ∀ x ∈ t, x.1 < x.2 ∧ x.2 ≤ B := fun x hx => hall x (List.mem_cons_of_mem _ hx)
    simp only [mergeSpecAux] at hm
    by_cases hc : (decide (run.2 ≥ r.1) || is_whitespace_only bytes run.2 r.1) = true
    · rw [if_pos hc] at hm
      exact ih (run.1, Nat.max run.2 r.2) (Nat.lt_of_lt_of_le h1 (Nat.le_max_left _ _))
        (Nat.max_le.mpr ⟨h2, hr.2⟩) ht m hm
    · rw [if_neg hc] at hm
      rcases List.mem_cons.mp hm with hm | hm
      · subst hm; exact ⟨h1, h2⟩
      · exact ih r hr.1 hr.2 ht m hm

/-- `merge_regions` preserves region well-formedness. -/
lemma merge_regions_invariant (regions : List (Nat × Nat)) (bytes : List Nat) (B : Nat)
    (hall : ∀ r ∈ regions, r.1 < r.2 ∧ r.2 ≤ B) :
    ∀ m ∈ merge_regions regions bytes, m.1 < m.2 ∧ m.2 ≤ B := by
  rw [merge_regions_eq_mergeSpec]
  cases regions with
  | nil => intro m hm; simp [mergeSpec] at hm
  | cons r rest =>
    have hr := hall r (List.mem_cons_self ..)
    exact mergeSpecAux_invariant bytes B rest r hr.1 hr.2
      fun x hx => hall x (List.mem_cons_of_mem _ hx)

/-- `getD` through `map`, at an in-range index. -/
lemma getD_map_of_lt {α β : Type _} (f : α → β) (l : List α) (i : Nat)
    (hi : i < l.length) (a : α) (b : β) :
    (l.map f).getD i b = f (l.getD i a) := by
  rw [List.getD_eq_getElem?_getD, List.getElem?_map, List.getD_eq_getElem?_getD,
    List.getElem?_eq_getElem hi]
  rfl

/-- The per-row `is_changed` value of the `process_changed` loop at row index
`i`, as a function of the inputs (claim C4's "row i is changed"). -/
def changedAt (old_lines new_lines : List (List Char)) (chunks : List Chunk)
    (plan : List (Option Nat × Option Nat)) (i : Nat) : Bool :=
  entryChanged old_lines new_lines (extract_changes chunks).1 (extract_changes chunks).2
    (plan.getD i (none, none))

/-- Claim C3: for every line text and every change list containing exactly one
change whose start is 0 and whose end is at least the byte length of the line,
`compute_highlights` returns exactly the full-line sentinel `{start 0, end -1}`,
not an exact-length range. -/
theorem C3_full_line_collapse (content : List Char) (c : Change)
    (h0 : c.start = 0) (hlen : byteLen content ≤ c.stop) :
    compute_highlights content [c] = [HighlightRegion.full_line] := by
  simp only [compute_highlights]
  rw [if_pos ⟨by trivial, h0, hlen⟩]

/-- Witness for C3 at line "ab" and the single full-span change {0, 2}. -/
theorem C3_full_line_collapse_witness :
    compute_highlights ['a', 'b'] [⟨0, 2, "", ""⟩] = [HighlightRegion.full_line] :=
  C3_full_line_collapse ['a', 'b'] ⟨0, 2, "", ""⟩ rfl (by decide)

/-- Claim C5: row counts — for `Changed` status the rows list has one row per
alignment entry; for `Created` one per new line; for `Deleted` one per old
line. -/
theorem C5_row_counts (p lang : String) (plan : List (Option Nat × Option Nat))
    (chunks : List Chunk) (old_lines new_lines : List (List Char)) :
    (process_file ⟨p, lang, Status.changed, plan, chunks⟩ old_lines new_lines).rows.length
        = plan.length ∧
    (process_file ⟨p, lang, Status.created, plan, chunks⟩ old_lines new_lines).rows.length
        = new_lines.length ∧
    (process_file ⟨p, lang, Status.deleted, plan, chunks⟩ old_lines new_lines).rows.length
        = old_lines.length := by
  refine ⟨?_, ?_, ?_⟩
  · simp only [process_file, process_changed]
    rw [processRowsAux_fst]
    simp
  · simp [process_file, process_created]
  · simp [process_file, process_deleted]

/-- Claim C7: a `Created` file yields one row per new line, each with a filler
left side and a right side carrying the line's content with exactly the single
full-line highlight; `additions` is the line count, `deletions` is 0, and
`hunk_starts` is `[0]` when lines exist and `[]` otherwise. -/
theorem C7_created_file (p lang : String) (plan : List (Option Nat × Option Nat))
    (chunks : List Chunk) (old_lines L : List (List Char)) :
    (process_file ⟨p, lang, Status.created, plan, chunks⟩ old_lines L).rows
        = L.map (fun line => ⟨⟨[], true, []⟩, ⟨line, false, [⟨0, -1⟩]⟩⟩) ∧
    (process_file ⟨p, lang, Status.created, plan, chunks⟩ old_lines L).additions = L.length ∧
    (process_file ⟨p, lang, Status.created, plan, chunks⟩ old_lines L).deletions = 0 ∧
    (process_file ⟨p, lang, Status.created, plan, chunks⟩ old_lines L).hunk_starts
        = (if L.isEmpty then [] else [0]) := by
  refine ⟨?_, ?_, ?_, ?_⟩ <;>
    simp [process_file, process_created, Side.filler, Side.with_full_highlight,
      HighlightRegion.full_line]

/-- Claim C8 (spec-modelled): when externally computed `(additions, deletions)`
statistics are supplied, the resulting `DisplayFile` carries exactly those
values, overriding the derived counts of any status. -/
theorem C8_stats_override (file : DifftFile) (old_lines new_lines : List (List Char))
    (a d : Nat) :
    (process_file_with_stats file old_lines new_lines (some (a, d))).additions = a ∧
    (process_file_with_stats file old_lines new_lines (some (a, d))).deletions = d :=
  ⟨rfl, rfl⟩

/-- Claim C1: in the non-early-return path of `compute_highlights`, the change
ranges are sorted by start ascending (the sort is a permutation that is
pairwise non-decreasing on starts) and merged left to right with a running
region, where an incoming range is merged — extending the running end to the
maximum of the two ends — exactly when the ranges overlap or touch
(`gapStart ≥ gapEnd`) or every byte of the line content in the gap
`[runningEnd, newStart)` is ASCII whitespace (`is_whitespace_only`), and
otherwise a new running region is started: `merge_regions` equals the
spec-side `mergeSpec` walk, and `compute_highlights` is the
sort-merge-collapse pipeline over it. -/
theorem C1_sort_and_merge :
    (∀ (regions : List (Nat × Nat)) (bytes : List Nat),
        merge_regions regions bytes = mergeSpec regions bytes) ∧
    (∀ rs : List (Nat × Nat),
        ((sortByStart rs).Pairwise fun a b => a.1 ≤ b.1) ∧ (sortByStart rs).Perm rs) ∧
    (∀ (content : List Char) (c : Change) (rest : List Change),
        ¬(rest = [] ∧ c.start = 0 ∧ byteLen content ≤ c.stop) →
        compute_highlights content (c :: rest) =
          (if covers_all_non_whitespace content
              (mergeSpec (sortByStart ((c :: rest).map fun ch => (ch.start, ch.stop)))
                (strBytes content)) then
            [HighlightRegion.full_line]
          else
            (mergeSpec (sortByStart ((c :: rest).map fun ch => (ch.start, ch.stop)))
              (strBytes content)).map fun r => HighlightRegion.columns r.1 r.2)) := by
  refine ⟨merge_regions_eq_mergeSpec,
    fun rs => ⟨sortByStart_pairwise rs, sortByStart_perm rs⟩, ?_⟩
  intro content c rest h
  rw [compute_highlights_else content c rest h]
  simp only [merge_regions_eq_mergeSpec]

/-- Witness for C1 at line "foo.bar" with changes {0,3} and {4,7}: the gap
holds a non-whitespace byte, so the regions stay separate. -/
theorem C1_sort_and_merge_witness :
    compute_highlights ['f', 'o', 'o', '.', 'b', 'a', 'r'] [⟨0, 3, "", ""⟩, ⟨4, 7, "", ""⟩] =
      (if covers_all_non_whitespace ['f', 'o', 'o', '.', 'b', 'a', 'r']
          (mergeSpec (sortByStart [(0, 3), (4, 7)])
            (strBytes ['f', 'o', 'o', '.', 'b', 'a', 'r'])) then
        [HighlightRegion.full_line]
      else
        (mergeSpec (sortByStart [(0, 3), (4, 7)])
          (strBytes ['f', 'o', 'o', '.', 'b', 'a', 'r'])).map
            fun r => HighlightRegion.columns r.1 r.2) :=
  C1_sort_and_merge.2.2 ['f', 'o', 'o', '.', 'b', 'a', 'r'] ⟨0, 3, "", ""⟩ [⟨4, 7, "", ""⟩]
    (by decide)

/-- Claim C2: after merging, coverage is tested character-wise: when some
non-whitespace character exists and every non-whitespace character's starting
byte offset lies inside some merged region, `compute_highlights` (past the
early returns) returns exactly the full-line sentinel; otherwise — including
when no non-whitespace character exists — it returns the merged regions as
explicit pairs, and the sentinel end value never occurs in them. -/
theorem C2_coverage_collapse (content : List Char) (c : Change) (rest : List Change)
    (h : ¬(rest = [] ∧ c.start = 0 ∧ byteLen content ≤ c.stop)) :
    (((∃ p ∈ charIndices content, rustIsWhitespace p.2 = false) ∧
        (∀ p ∈ charIndices content, rustIsWhitespace p.2 = false →
          coveredByB (merge_regions (sortByStart ((c :: rest).map fun ch => (ch.start, ch.stop)))
            (strBytes content)) p.1 = true)) →
      compute_highlights content (c :: rest) = [HighlightRegion.full_line]) ∧
    (¬((∃ p ∈ charIndices content, rustIsWhitespace p.2 = false) ∧
        (∀ p ∈ charIndices content, rustIsWhitespace p.2 = false →
          coveredByB (merge_regions (sortByStart ((c :: rest).map fun ch => (ch.start, ch.stop)))
            (strBytes content)) p.1 = true)) →
      compute_highlights content (c :: rest) =
        (merge_regions (sortByStart ((c :: rest).map fun ch => (ch.start, ch.stop)))
          (strBytes content)).map (fun r => HighlightRegion.columns r.1 r.2) ∧
      ∀ r ∈ compute_highlights content (c :: rest), r.stop ≠ -1) := by
  have hiff : covers_all_non_whitespace content
      (merge_regions (sortByStart ((c :: rest).map fun ch => (ch.start, ch.stop)))
        (strBytes content)) = true ↔
      ((∃ p ∈ charIndices content, rustIsWhitespace p.2 = false) ∧
        (∀ p ∈ charIndices content, rustIsWhitespace p.2 = false →
          coveredByB (merge_regions (sortByStart ((c :: rest).map fun ch => (ch.start, ch.stop)))
            (strBytes content)) p.1 = true)) := by
    rw [covers_all_non_whitespace_eq, Bool.and_eq_true, List.all_eq_true, List.any_eq_true]
    constructor
    · rintro ⟨hall, p, hp, hnw⟩
      refine ⟨⟨p, hp, by simpa using hnw⟩, ?_⟩
      intro q hq hqw
      have h1 := hall q hq
      rw [hqw] at h1
      simpa using h1
    · rintro ⟨⟨p, hp, hpw⟩, hall⟩
      refine ⟨?_, p, hp, by simp [hpw]⟩
      intro q hq
      by_cases hqw : rustIsWhitespace q.2
      · rw [hqw, Bool.true_or]
      · have hcv := hall q hq (by simpa using hqw)
        rw [hcv, Bool.or_true]
  constructor
  · intro hP
    rw [compute_highlights_else content c rest h, if_pos (hiff.mpr hP)]
  · intro hP
    have hcov : ¬(covers_all_non_whitespace content
        (merge_regions (sortByStart ((c :: rest).map fun ch => (ch.start, ch.stop)))
          (strBytes content)) = true) := fun hcv => hP (hiff.mp hcv)
    rw [compute_highlights_else content c rest h, if_neg hcov]
    refine ⟨rfl, ?_⟩
    intro r hr
    rcases List.mem_map.mp hr with ⟨s, _, rfl⟩
    simp only [HighlightRegion.columns]
    split <;> omega

/-- Witness for C2 at line "foo bar" with changes {0,3} and {4,7}: the merged
region covers every non-whitespace character, so the output is the sentinel. -/
theorem C2_coverage_collapse_witness :
    compute_highlights ['f', 'o', 'o', ' ', 'b', 'a', 'r'] [⟨0, 3, "", ""⟩, ⟨4, 7, "", ""⟩] =
      [HighlightRegion.full_line] :=
  (C2_coverage_collapse ['f', 'o', 'o', ' ', 'b', 'a', 'r'] ⟨0, 3, "", ""⟩ [⟨4, 7, "", ""⟩]
    (by decide)).1 ⟨by decide, by decide⟩

/-- Claim C9 counterexample: with line "a" and the single malformed change
{start 5, end 2} (accepted without validation), `compute_highlights` returns
`[{start 5, end 2}]`, whose end is neither -1 nor greater than its start — the
claimed invariant fails as stated. -/
theorem C9_counterexample :
    ∃ r ∈ compute_highlights ['a'] [⟨5, 2, "", ""⟩],
      ¬(r.stop = -1 ∨ (r.start : Int) < r.stop) := by
  decide

/-- Claim C9 amended: when every input change satisfies `start < end` and
`end ≤ 2^31 - 1` (so neither a degenerate/inverted range nor the
`i32::MAX` clamp can produce a non-increasing output range), every region
produced by `compute_highlights` satisfies end = -1 or end > start. -/
theorem C9_amended_invariant (content : List Char) (changes : List Change)
    (h : ∀ ch ∈ changes, ch.start < ch.stop ∧ ch.stop ≤ 2147483647) :
    ∀ r ∈ compute_highlights content changes, r.stop = -1 ∨ (r.start : Int) < r.stop := by
  intro r hr
  cases changes with
  | nil => simp [compute_highlights] at hr
  | cons c rest =>
    by_cases hearly : rest = [] ∧ c.start = 0 ∧ byteLen content ≤ c.stop
    · have heq : compute_highlights content (c :: rest) = [HighlightRegion.full_line] := by
        simp only [compute_highlights]
        rw [if_pos hearly]
      rw [heq] at hr
      rcases List.mem_singleton.mp hr with rfl
      left; rfl
    · rw [compute_highlights_else content c rest hearly] at hr
      by_cases hcov : covers_all_non_whitespace content
          (merge_regions (sortByStart ((c :: rest).map fun ch => (ch.start, ch.stop)))
            (strBytes content)) = true
      · rw [if_pos hcov] at hr
        rcases List.mem_singleton.mp hr with rfl
        left; rfl
      · rw [if_neg hcov] at hr
        rcases List.mem_map.mp hr with ⟨s, hs, rfl⟩
        have hmem_all : ∀ x ∈ sortByStart ((c :: rest).map fun ch => (ch.start, ch.stop)),
            x.1 < x.2 ∧ x.2 ≤ 2147483647 := by
          intro x hx
          have hx2 : x ∈ (c :: rest).map fun ch => (ch.start, ch.stop) :=
            (sortByStart_perm _).mem_iff.mp hx
          rcases List.mem_map.mp hx2 with ⟨ch, hch, rfl⟩
          exact h ch hch
        have hinv := merge_regions_invariant _ (strBytes content) 2147483647 hmem_all s hs
        right
        simp only [HighlightRegion.columns]
        rw [if_pos hinv.2]
        exact_mod_cast hinv.1

/-- Witness for the amended C9 at line "a" with the single well-formed change
{0, 1}: the output is the sentinel, which satisfies the invariant. -/
theorem C9_amended_invariant_witness :
    HighlightRegion.full_line.stop = -1 ∨
      (HighlightRegion.full_line.start : Int) < HighlightRegion.full_line.stop :=
  C9_amended_invariant ['a'] [⟨0, 1, "", ""⟩] (by decide) HighlightRegion.full_line (by decide)

/-- Claim C10: on the empty line, any single change with start 0 collapses to
the full-line sentinel (every unsigned end is at least the empty line's byte
length 0); in particular, an alignment entry whose line reference is out of
range (degraded to empty content) but which has a single recorded change
(start 0) in the change index produces a side with empty content and a
full-line highlight, and that row counts as changed for hunk tracking. -/
theorem C10_empty_line_sentinel :
    (∀ c : Change, c.start = 0 → compute_highlights [] [c] = [HighlightRegion.full_line]) ∧
    (∀ (old_lines new_lines : List (List Char)) (lhsM rhsM : List (Nat × List Change))
        (ln : Nat) (rln : Option Nat) (c : Change),
        mapGet lhsM ln = some [c] → c.start = 0 → old_lines.length ≤ ln →
        (mkRow old_lines new_lines lhsM rhsM (some ln, rln)).left =
            ⟨[], false, [HighlightRegion.full_line]⟩ ∧
        entryChanged old_lines new_lines lhsM rhsM (some ln, rln) = true) := by
  refine ⟨fun c hc => compute_highlights_empty_single c hc, ?_⟩
  intro old_lines new_lines lhsM rhsM ln rln c hmap h0 hlen
  have hcontent : sideContent old_lines (some ln) = [] := by
    simp [sideContent, List.getElem?_eq_none hlen]
  have hhl : sideHighlights lhsM [] (some ln) = [HighlightRegion.full_line] := by
    have hb : ((some ln).bind fun l => mapGet lhsM l) = some [c] := hmap
    simp only [sideHighlights, hb]
    exact compute_highlights_empty_single c h0
  refine ⟨?_, ?_⟩
  · simp [mkRow, hcontent, hhl]
  · simp [entryChanged, hcontent, hhl]

/-- Witness for C10: line index 2 is out of range of the empty old-file line
array, yet the change index records a single change {0,5} for it. -/
theorem C10_empty_line_sentinel_witness :
    (mkRow [] [] [(2, [⟨0, 5, "", ""⟩])] [] (some 2, none)).left =
        ⟨[], false, [HighlightRegion.full_line]⟩ ∧
    entryChanged [] [] [(2, [⟨0, 5, "", ""⟩])] [] (some 2, none) = true :=
  C10_empty_line_sentinel.2 [] [] [(2, [⟨0, 5, "", ""⟩])] [] 2 none ⟨0, 5, "", ""⟩
    (by decide) rfl (by decide)

/-- Claim C4: for every Changed-status input, `hunk_starts` is exactly the
increasing list of row indices `i` such that row `i` is changed (a side's line
number is absent or a side's computed highlights are nonempty) and either
`i = 0` or row `i-1` is not changed; consequently it is strictly increasing,
every value is a valid row index (so there is exactly one entry per maximal
contiguous run of changed rows), and with no changed rows it is empty. -/
theorem C4_hunk_starts (p lang : String) (plan : List (Option Nat × Option Nat))
    (chunks : List Chunk) (old_lines new_lines : List (List Char)) :
    (process_file ⟨p, lang, Status.changed, plan, chunks⟩ old_lines new_lines).hunk_starts =
        ((List.range plan.length).filter fun i =>
          changedAt old_lines new_lines chunks plan i &&
            (i == 0 || !changedAt old_lines new_lines chunks plan (i - 1))) ∧
    ((process_file ⟨p, lang, Status.changed, plan, chunks⟩ old_lines
        new_lines).hunk_starts.Pairwise (· < ·)) ∧
    (∀ x ∈ (process_file ⟨p, lang, Status.changed, plan, chunks⟩ old_lines
        new_lines).hunk_starts, x < plan.length) ∧
    ((∀ i < plan.length, changedAt old_lines new_lines chunks plan i = false) →
      (process_file ⟨p, lang, Status.changed, plan, chunks⟩ old_lines
        new_lines).hunk_starts = []) := by
  have hred : (process_file ⟨p, lang, Status.changed, plan, chunks⟩ old_lines
      new_lines).hunk_starts =
      (processRowsAux old_lines new_lines (extract_changes chunks).1
        (extract_changes chunks).2 0 false plan).2 := rfl
  have hst : (process_file ⟨p, lang, Status.changed, plan, chunks⟩ old_lines
      new_lines).hunk_starts =
      (List.range plan.length).filter fun i =>
        changedAt old_lines new_lines chunks plan i &&
          (i == 0 || !changedAt old_lines new_lines chunks plan (i - 1)) := by
    rw [hred, processRowsAux_snd, hunkSpec_eq_filter, List.length_map]
    have hmap0 : ∀ l : List Nat, l.map (· + 0) = l := by
      intro l
      simp
    rw [hmap0]
    refine List.filter_congr ?_
    intro i hi
    have hi2 : i < plan.length := List.mem_range.mp hi
    cases i with
    | zero =>
      have he := List.getElem?_eq_getElem (l := plan) (n := 0) hi2
      simp [changedAt, he]
    | succ j =>
      have hj : j < plan.length := Nat.lt_of_succ_lt hi2
      have he1 := List.getElem?_eq_getElem (l := plan) (n := j + 1) hi2
      have he2 := List.getElem?_eq_getElem (l := plan) (n := j) hj
      simp [changedAt, he1, he2]
  refine ⟨hst, ?_, ?_, ?_⟩
  · rw [hst]
    exact List.Pairwise.sublist (List.filter_sublist _) (List.pairwise_lt_range _)
  · rw [hst]
    intro x hx
    exact List.mem_range.mp (List.mem_filter.mp hx).1
  · intro hall
    rw [hst]
    refine List.filter_eq_nil_iff.mpr ?_
    intro i hi
    simp [hall i (List.mem_range.mp hi)]

/-- Witness for C4 at a one-row plan with no recorded changes: no hunk starts. -/
theorem C4_hunk_starts_witness :
    (process_file ⟨"f", "l", Status.changed, [(some 0, some 0)], []⟩ [['x']]
      [['x']]).hunk_starts = [] :=
  (C4_hunk_starts "f" "l" [(some 0, some 0)] [] [['x']] [['x']]).1.trans (by decide)

/-- Claim C6: for a Changed-status input, an alignment entry whose present line
number is out of range of the corresponding line array yields that side with
empty content rather than failing, and `process_file` still returns a complete
`DisplayFile` (one row per alignment entry). -/
theorem C6_out_of_range_degrades (p lang : String) (plan : List (Option Nat × Option Nat))
    (chunks : List Chunk) (old_lines new_lines : List (List Char)) :
    (process_file ⟨p, lang, Status.changed, plan, chunks⟩ old_lines
        new_lines).rows.length = plan.length ∧
    (∀ (i ln : Nat) (rln : Option Nat),
        plan[i]? = some (some ln, rln) → old_lines.length ≤ ln →
        ∃ row, (process_file ⟨p, lang, Status.changed, plan, chunks⟩ old_lines
            new_lines).rows[i]? = some row ∧ row.left.content = []) ∧
    (∀ (i ln : Nat) (lln : Option Nat),
        plan[i]? = some (lln, some ln) → new_lines.length ≤ ln →
        ∃ row, (process_file ⟨p, lang, Status.changed, plan, chunks⟩ old_lines
            new_lines).rows[i]? = some row ∧ row.right.content = []) := by
  have hrows : (process_file ⟨p, lang, Status.changed, plan, chunks⟩ old_lines
      new_lines).rows =
      plan.map (mkRow old_lines new_lines (extract_changes chunks).1
        (extract_changes chunks).2) := by
    have hred : (process_file ⟨p, lang, Status.changed, plan, chunks⟩ old_lines
        new_lines).rows =
        (processRowsAux old_lines new_lines (extract_changes chunks).1
          (extract_changes chunks).2 0 false plan).1 := rfl
    rw [hred, processRowsAux_fst]
  refine ⟨by rw [hrows]; simp, ?_, ?_⟩
  · intro i ln rln hplan hlen
    refine ⟨mkRow old_lines new_lines (extract_changes chunks).1
      (extract_changes chunks).2 (some ln, rln), ?_, ?_⟩
    · rw [hrows, List.getElem?_map, hplan]
      rfl
    · simp [mkRow, sideContent, List.getElem?_eq_none hlen]
  · intro i ln lln hplan hlen
    refine ⟨mkRow old_lines new_lines (extract_changes chunks).1
      (extract_changes chunks).2 (lln, some ln), ?_, ?_⟩
    · rw [hrows, List.getElem?_map, hplan]
      rfl
    · simp [mkRow, sideContent, List.getElem?_eq_none hlen]

/-- Witness for C6: a plan referencing old line 5 of an empty old file yields a
left side with empty content at row 0. -/
theorem C6_out_of_range_degrades_witness :
    ((process_file ⟨"f", "l", Status.changed, [(some 5, some 0)], []⟩ []
        [['x']]).rows[0]?.map fun row => row.left.content) = some [] := by
  obtain ⟨row, h1, h2⟩ :=
    (C6_out_of_range_degrades "f" "l" [(some 5, some 0)] [] [] [['x']]).2.1 0 5 (some 0)
      rfl (by decide)
  rw [h1]
  simp [h2]
